import Mathlib

/-!
# Verification of the `forrest` Merkle-tree library

A shallow embedding of `src/binary_tree.rs` and `src/merkle_tree.rs`.

Modelling conventions:
* Rust `Vec<u8>` byte strings become `Bytes := List Nat`; every byte a
  program can actually store is `< 256`, which is tracked by the
  predicate `bytesLT` where a proof needs it.
* Rust `String` becomes `Str := List Char` (a string is its character
  data; the hex strings handled here are ASCII).
* Code that panics (`expect`, `unwrap`, index underflow/overflow in
  `u32` arithmetic, `HashMap::get(..).expect`) is modelled with
  `Option`: `none` is the panic.  In particular `leaf_range` on a
  depth-0 tree panics in the source (`self.depth - 1` underflows a
  `u32`), so it returns `none` here, and `MerkleTree::new` for
  `depth ≥ 32` panics (`2u32.pow(depth)` overflows), so it is `none`.
* The SHA3-256 hash is the spec's pluggable one-way compression
  function; every definition and theorem is parameterised by
  `H : Bytes → Bytes`.  Where a proof needs the fact that a real digest
  is a byte string, the hypothesis `∀ v, bytesLT (H v)` appears.
* The per-construction memoization cache (`seen_hashes : HashMap`) is
  modelled as an association list with the same lookup/insert
  behaviour.
-/

namespace Forrest

/-- Byte strings (`Vec<u8>`). -/
abbrev Bytes := List Nat

/-- Rust `String`, modelled as its character data. -/
abbrev Str := List Char

/-- Shorthand turning a Lean string literal into the `Str` model. -/
def str (s : String) : Str := s.data

/-- Every byte of the list is an actual byte value. -/
def bytesLT (bs : Bytes) : Prop := ∀ b ∈ bs, b < 256

/-- Lower-case hex digit for a value `< 16` (`hex::encode` emits lower case). -/
def hexDigitChar (n : Nat) : Char :=
  match n with
  | 0 => '0' | 1 => '1' | 2 => '2' | 3 => '3' | 4 => '4'
  | 5 => '5' | 6 => '6' | 7 => '7' | 8 => '8' | 9 => '9'
  | 10 => 'a' | 11 => 'b' | 12 => 'c' | 13 => 'd' | 14 => 'e' | 15 => 'f'
  | _ => '*'

/-- Value of a hex digit character; `hex::FromHex` accepts both cases. -/
def hexCharToNat? (c : Char) : Option Nat :=
  match c with
  | 'f' => some 15
  | 'e' => some 14
  | 'd' => some 13
  | 'c' => some 12
  | 'b' => some 11
  | 'a' => some 10
  | 'F' => some 15
  | 'E' => some 14
  | 'D' => some 13
  | 'C' => some 12
  | 'B' => some 11
  | 'A' => some 10
  | '9' => some 9
  | '8' => some 8
  | '7' => some 7
  | '6' => some 6
  | '5' => some 5
  | '4' => some 4
  | '3' => some 3
  | '2' => some 2
  | '1' => some 1
  | '0' => some 0
  | _ => none

/-- `hex::encode`: each byte becomes its high then its low hex digit. -/
def hexEncode : Bytes → Str
  | [] => []
  | b :: rest => hexDigitChar (b / 16) :: hexDigitChar (b % 16) :: hexEncode rest

/-- `Vec::<u8>::from_hex` on raw characters: two hex digits per byte,
odd-length input is an error. -/
def hexDecodeChars : Str → Option Bytes
  | [] => some []
  | [_] => none
  | c1 :: c2 :: rest =>
    match hexCharToNat? c1, hexCharToNat? c2, hexDecodeChars rest with
    | some h, some l, some tail => some ((16 * h + l) :: tail)
    | _, _, _ => none

/-- `MerkleTree::hex_to_bytes`: strip a leading `"0x"` then decode. -/
def hex_to_bytes (s : Str) : Option Bytes :=
  let stripped := if s.take 2 = ['0', 'x'] then s.drop 2 else s
  hexDecodeChars stripped

/-- The string `"0x"` prepended to every emitted digest. -/
def str0x : Str := ['0', 'x']

/-- `BinaryTreeBehavior::get_left_child` / `BinaryTree::get_left_child`. -/
def get_left_child (index : Nat) : Nat := 2 * index

/-- `BinaryTreeBehavior::get_right_child` / `BinaryTree::get_right_child`. -/
def get_right_child (index : Nat) : Nat := 2 * index + 1

/-- `BinaryTree::get_parent`. -/
def get_parent (index : Nat) : Nat := index / 2

/-- `BinaryTree::get_node_index`: `2^depth + offset`. -/
def get_node_index (depth offset : Nat) : Nat := 2 ^ depth + offset

/-- `BinaryTree::get_depth_and_offset`; panics (`none`) on the reserved
index `0`.  `(node_count + 1).ilog2()` with `node_count = index - 1` is
`Nat.log2 index`. -/
def get_depth_and_offset (index : Nat) : Option (Nat × Nat) :=
  if index = 0 then none
  else
    let node_count := index - 1
    let depth := Nat.log2 (node_count + 1)
    let start_index_at_depth := 2 ^ depth
    some (depth, index - start_index_at_depth)

/-- `MerkleTree { depth, representation }`. -/
structure MerkleTree where
  depth : Nat
  representation : List Bytes
deriving DecidableEq

/-- Whether the current node is the left or the right child at a proof step. -/
inductive Handedness where
  | Left
  | Right
deriving DecidableEq

/-- `MerkleTree::concatenate_hashes`: byte concatenation, left first. -/
def concatenate_hashes (left right : Bytes) : Bytes := left ++ right

/-- Every stored digest of the array is a genuine byte string. -/
def repLT (rep : List Bytes) : Prop := ∀ i, bytesLT (rep.getD i [])

/-- `MerkleTree::rebalance`'s `while current > 0` loop: recompute the parent
digest from its two children, then move to the parent.  Note the final
iteration (`current = 1`) has parent `0`, whose "children" by the index
arithmetic are nodes `0` and `1`: the loop really does write the reserved
slot 0. -/
def rebalanceAux (H : Bytes → Bytes) (rep : List Bytes) (current : Nat) : List Bytes :=
  if h : 0 < current then
    let parent := get_parent current
    let left_child_hash := rep.getD (get_left_child parent) []
    let right_child_hash := rep.getD (get_right_child parent) []
    let concatenation := concatenate_hashes left_child_hash right_child_hash
    rebalanceAux H (rep.set parent (H concatenation)) parent
  else rep
termination_by current
decreasing_by simp only [get_parent]; omega

/-- `seen_hashes.get` on the per-level memoization cache, modelled as an
association list (`HashMap::insert` on a missing key is a cons). -/
def lookupCache : List (Str × Bytes) → Str → Option Bytes
  | [], _ => none
  | kv :: rest, key => if kv.1 = key then some kv.2 else lookupCache rest key

/-- Soundness invariant of the memoization cache: every entry is the hex
key of some byte string together with that byte string's `H`-digest. -/
def cacheOK (H : Bytes → Bytes) (cache : List (Str × Bytes)) : Prop :=
  ∀ kv ∈ cache, ∃ c, bytesLT c ∧ kv.1 = hexEncode c ∧ kv.2 = H c

/-- The body of the construction loop for one node `i`: hash the
concatenation of the two children, reusing the cached digest when this
exact concatenation (keyed by its hex encoding) was hashed before at this
level. -/
def stepNode (H : Bytes → Bytes) (st : List Bytes × List (Str × Bytes)) (i : Nat) :
    List Bytes × List (Str × Bytes) :=
  match lookupCache st.2 (hexEncode (concatenate_hashes
      (st.1.getD (get_left_child i) []) (st.1.getD (get_right_child i) []))) with
  | some cached => (st.1.set i cached, st.2)
  | none =>
    (st.1.set i (H (concatenate_hashes
        (st.1.getD (get_left_child i) []) (st.1.getD (get_right_child i) []))),
     (hexEncode (concatenate_hashes
        (st.1.getD (get_left_child i) []) (st.1.getD (get_right_child i) [])),
      H (concatenate_hashes
        (st.1.getD (get_left_child i) []) (st.1.getD (get_right_child i) []))) :: st.2)

/-- The inner `for i in start..end` loop of the construction, with its
cache threaded through. -/
def buildRange (H : Bytes → Bytes) (st : List Bytes × List (Str × Bytes))
    (start : Nat) : Nat → List Bytes × List (Str × Bytes)
  | 0 => st
  | n + 1 => buildRange H (stepNode H st start) (start + 1) n

/-- The outer `while current_depth > 0` loop: process the whole level
`cd` (indices `[2^cd, 2^(cd+1))`, a fresh cache per level), then the level
above it. -/
def buildLevels (H : Bytes → Bytes) (rep : List Bytes) : Nat → List Bytes
  | 0 => rep
  | cd + 1 => buildLevels H (buildRange H (rep, []) (2 ^ (cd + 1)) (2 ^ (cd + 1))).1 cd

/-- Cache-free rendering of `stepNode`; the bridge lemmas show the cached
version computes the same array. -/
def stepNodeP (H : Bytes → Bytes) (rep : List Bytes) (i : Nat) : List Bytes :=
  rep.set i (H (concatenate_hashes (rep.getD (get_left_child i) [])
    (rep.getD (get_right_child i) [])))

/-- Cache-free rendering of `buildRange`. -/
def buildRangeP (H : Bytes → Bytes) (rep : List Bytes) (start : Nat) : Nat → List Bytes
  | 0 => rep
  | n + 1 => buildRangeP H (stepNodeP H rep start) (start + 1) n

/-- Cache-free rendering of `buildLevels`. -/
def buildLevelsP (H : Bytes → Bytes) (rep : List Bytes) : Nat → List Bytes
  | 0 => rep
  | cd + 1 => buildLevelsP H (buildRangeP H rep (2 ^ (cd + 1)) (2 ^ (cd + 1))) cd

/-- The leaf-initialisation loop: assign `b` to `n` consecutive slots
starting at `start`. -/
def setRange (rep : List Bytes) (start : Nat) (b : Bytes) : Nat → List Bytes
  | 0 => rep
  | n + 1 => setRange (rep.set start b) (start + 1) b n

/-- `MerkleTree::new`.  `expect` on a malformed `initial_leaf` is `none`;
so is the `u32` overflow of `2u32.pow(depth)` for `depth ≥ 32` in the
general branch.  For `depth ≥ 2` the loop runs `current_depth` from
`depth - 2` down to `1` and the root is hashed as a final separate step. -/
def MerkleTree.new (H : Bytes → Bytes) (depth : Nat) (initial_leaf : Str) :
    Option MerkleTree :=
  if depth = 0 then
    match hex_to_bytes initial_leaf with
    | none => none
    | some b => some { depth := depth, representation := [[], b] }
  else if depth = 1 then
    match hex_to_bytes initial_leaf with
    | none => none
    | some b =>
      some { depth := depth,
             representation := [[], H (concatenate_hashes b b), b, b] }
  else if 32 ≤ depth then none
  else
    match hex_to_bytes initial_leaf with
    | none => none
    | some as_bytes =>
      let len := 2 ^ depth
      let rep0 := List.replicate len ([] : Bytes)
      let rep1 := setRange rep0 (2 ^ (depth - 1)) as_bytes (len - 2 ^ (depth - 1))
      let rep2 := buildLevels H rep1 (depth - 2)
      let rep3 := rep2.set 1
        (H (concatenate_hashes (rep2.getD (get_left_child 1) [])
          (rep2.getD (get_right_child 1) [])))
      some { depth := depth, representation := rep3 }

/-- The leaf-initialised array of the general (`depth ≥ 2`) construction. -/
def rep1P (d : Nat) (b : Bytes) : List Bytes :=
  setRange (List.replicate (2 ^ d) ([] : Bytes)) (2 ^ (d - 1)) b (2 ^ d - 2 ^ (d - 1))

/-- The array after the level loop of the general construction. -/
def rep2P (H : Bytes → Bytes) (d : Nat) (b : Bytes) : List Bytes :=
  buildLevelsP H (rep1P d b) (d - 2)

/-- The final array of the general construction (root written last). -/
def newRepP (H : Bytes → Bytes) (d : Nat) (b : Bytes) : List Bytes :=
  (rep2P H d b).set 1
    (H (concatenate_hashes ((rep2P H d b).getD (get_left_child 1) [])
      ((rep2P H d b).getD (get_right_child 1) [])))

/-- State invariant of a well-formed depth-`d` tree: correct depth tag and
array size, genuine byte strings everywhere, and the Merkle parent-child
hash equation at every internal node. -/
def Good (H : Bytes → Bytes) (d : Nat) (t : MerkleTree) : Prop :=
  t.depth = d ∧ t.representation.length = 2 ^ d ∧ repLT t.representation ∧
  ∀ i, 1 ≤ i → i < 2 ^ (d - 1) →
    t.representation.getD i [] =
      H (t.representation.getD (2 * i) [] ++ t.representation.getD (2 * i + 1) [])

/-- `MerkleTree::root`. -/
def MerkleTree.root (t : MerkleTree) : Str :=
  str0x ++ hexEncode (t.representation.getD 1 [])

/-- `MerkleTree::get`. -/
def MerkleTree.get (t : MerkleTree) (index : Nat) : Bytes :=
  t.representation.getD index []

/-- `MerkleTree::leaf_range`.  `2u32.pow(self.depth - 1)` panics for
`depth = 0` (checked `u32` underflow) and for `depth ≥ 33` (checked
`u32` overflow of the power); both are `none` here. -/
def MerkleTree.leaf_range (t : MerkleTree) : Option (Nat × Nat) :=
  if t.depth = 0 then none
  else if 33 ≤ t.depth then none
  else some (2 ^ (t.depth - 1), t.representation.length)

/-- `MerkleTree::rebalance`. -/
def MerkleTree.rebalance (H : Bytes → Bytes) (t : MerkleTree) (index : Nat) : MerkleTree :=
  { depth := t.depth, representation := rebalanceAux H t.representation index }

/-- `MerkleTree::set`: reject non-leaf indices and non-hex values, else
store the decoded digest and rebalance from the leaf. -/
def MerkleTree.set (H : Bytes → Bytes) (t : MerkleTree) (index : Nat) (value : Str) :
    Option MerkleTree :=
  match MerkleTree.leaf_range t with
  | none => none
  | some r =>
    if r.1 ≤ index ∧ index < r.2 then
      match hex_to_bytes value with
      | none => none
      | some b =>
        some { depth := t.depth, representation := rebalanceAux H (t.representation.set index b) index }
    else none

/-- The `while current > 1` walk of `MerkleTree::proof`: record whether the
current node is a left child (even index) or a right child, together with
the hex-encoded digest of its sibling, then climb to the parent. -/
def proofAux (rep : List Bytes) (current : Nat) : List (Handedness × Str) :=
  if h : 1 < current then
    let parent := get_parent current
    let handedness := if current % 2 = 0 then Handedness.Left else Handedness.Right
    let sibling_hash_vec :=
      match handedness with
      | Handedness.Left => rep.getD (get_right_child parent) []
      | Handedness.Right => rep.getD (get_left_child parent) []
    (handedness, str0x ++ hexEncode sibling_hash_vec) :: proofAux rep parent
  else []
termination_by current
decreasing_by simp only [get_parent]; omega

/-- `MerkleTree::proof`.  `leaf_index` is a zero-based offset into
`leaf_range()`; the `HashMap` built from `enumerate()` maps offset `k` to
array index `lo + k` and the `expect` on a missing key is `none`.  The
`leaf_range()` call itself panics (`none`) on a depth-0 tree. -/
def MerkleTree.proof (t : MerkleTree) (leaf_index : Nat) :
    Option (List (Handedness × Str)) :=
  match MerkleTree.leaf_range t with
  | none => none
  | some r =>
    if leaf_index < r.2 - r.1 then some (proofAux t.representation (r.1 + leaf_index))
    else none

/-- One step of `MerkleTree::verify`'s fold.  The source `unwrap`s the hex
decoding of both the accumulator and the sibling; a decoding failure is
`none`, which the fold then propagates. -/
def verifyStep (H : Bytes → Bytes) (acc : Option Str) (p : Handedness × Str) :
    Option Str :=
  match acc with
  | none => none
  | some a =>
    match hex_to_bytes a, hex_to_bytes p.2 with
    | some hash_bytes_of_current, some hash_bytes_of_sibling =>
      (match p.1 with
       | Handedness.Left =>
         some (str0x ++ hexEncode (H (concatenate_hashes hash_bytes_of_current hash_bytes_of_sibling)))
       | Handedness.Right =>
         some (str0x ++ hexEncode (H (concatenate_hashes hash_bytes_of_sibling hash_bytes_of_current))))
    | _, _ => none

/-- `MerkleTree::verify`: fold the proof path leaf-to-root starting from
the supplied leaf hash. -/
def MerkleTree.verify (H : Bytes → Bytes) (path : List (Handedness × Str))
    (leaf_hash : Str) : Option Str :=
  path.foldl (verifyStep H) (some leaf_hash)

/-- A sequence of `set` calls; a failed (panicking) call leaves the tree
unchanged. -/
def applySets (H : Bytes → Bytes) (t : MerkleTree) : List (Nat × Str) → MerkleTree
  | [] => t
  | op :: rest =>
    match MerkleTree.set H t op.1 op.2 with
    | some t2 => applySets H t2 rest
    | none => applySets H t rest

/-- A concrete stand-in for the pluggable one-way hash used by witnesses
and counterexamples: the digest is the single byte summing the input. -/
def Hc (v : Bytes) : Bytes :=
  [(v.foldl (fun a b => a + b) 0 + v.length) % 256]

theorem hexCharToNat_hexDigitChar : ∀ n, n < 16 → hexCharToNat? (hexDigitChar n) = some n := by
  decide

theorem hexCharToNat_lt {c : Char} {v : Nat} (h : hexCharToNat? c = some v) : v < 16 := by
  unfold hexCharToNat? at h
  split at h <;> simp_all <;> omega

theorem hexDecodeChars_bytesLT :
    ∀ cs bs, hexDecodeChars cs = some bs → bytesLT bs
  | [], bs, h => by
    simp [hexDecodeChars] at h
    subst h
    intro b hb
    simp at hb
  | [_], bs, h => by simp [hexDecodeChars] at h
  | c1 :: c2 :: rest, bs, h => by
    unfold hexDecodeChars at h
    split at h
    · rename_i hv lv tail hh hl htail
      cases h
      intro b hb
      rcases List.mem_cons.mp hb with hb | hb
      · subst hb
        have := hexCharToNat_lt hh
        have := hexCharToNat_lt hl
        omega
      · exact hexDecodeChars_bytesLT rest tail htail b hb
    · exact absurd h (by simp)

theorem hexDecode_hexEncode (bs : Bytes) (h : bytesLT bs) :
    hexDecodeChars (hexEncode bs) = some bs := by
  induction bs with
  | nil => rfl
  | cons b rest ih =>
    have hb : b < 256 := h b (List.mem_cons_self b rest)
    have hrest : bytesLT rest := fun x hx => h x (List.mem_cons_of_mem b hx)
    have hhi : b / 16 < 16 := by omega
    have hlo : b % 16 < 16 := Nat.mod_lt b (by norm_num)
    simp only [hexEncode, hexDecodeChars,
      hexCharToNat_hexDigitChar _ hhi, hexCharToNat_hexDigitChar _ hlo, ih hrest]
    have hdm : 16 * (b / 16) + b % 16 = b := by omega
    simp [hdm]

theorem hexEncode_injective {a b : Bytes} (ha : bytesLT a) (hb : bytesLT b)
    (h : hexEncode a = hexEncode b) : a = b := by
  have h1 := hexDecode_hexEncode a ha
  have h2 := hexDecode_hexEncode b hb
  rw [h, h2] at h1
  exact (Option.some_inj.mp h1).symm

theorem hex_to_bytes_0x_hexEncode (bs : Bytes) (h : bytesLT bs) :
    hex_to_bytes (str0x ++ hexEncode bs) = some bs := by
  simp only [hex_to_bytes, str0x]
  simp [hexDecode_hexEncode bs h]

theorem getD_set_eq {α : Type} (d : α) :
    ∀ (l : List α) (i : Nat) (v : α), i < l.length → (l.set i v).getD i d = v
  | [], _, _, h => by simp at h
  | _ :: _, 0, _, _ => rfl
  | a :: l, i + 1, v, h => by
    simp only [List.set, List.getD_cons_succ]
    exact getD_set_eq d l i v (by simpa using h)

theorem getD_set_ne {α : Type} (d : α) :
    ∀ (l : List α) (i j : Nat) (v : α), i ≠ j → (l.set i v).getD j d = l.getD j d
  | [], _, _, _, _ => rfl
  | _ :: _, 0, 0, _, h => absurd rfl h
  | _ :: _, 0, _ + 1, _, _ => by simp [List.set, List.getD_cons_succ]
  | _ :: _, _ + 1, 0, _, _ => by simp [List.set, List.getD_cons_zero]
  | a :: l, i + 1, j + 1, v, h => by
    simp only [List.set, List.getD_cons_succ]
    exact getD_set_ne d l i j v (fun hij => h (by omega))

theorem getD_set_cases {α : Type} (d : α) (l : List α) (i j : Nat) (v : α) :
    (l.set i v).getD j d = v ∨ (l.set i v).getD j d = l.getD j d := by
  by_cases hij : i = j
  · subst hij
    by_cases hlen : i < l.length
    · exact Or.inl (getD_set_eq d l i v hlen)
    · right
      rw [List.set_eq_of_length_le (by omega)]
  · exact Or.inr (getD_set_ne d l i j v hij)

theorem set_getD_self {α : Type} (d : α) :
    ∀ (l : List α) (i : Nat), l.set i (l.getD i d) = l
  | [], _ => rfl
  | a :: l, 0 => by simp [List.set, List.getD_cons_zero]
  | a :: l, i + 1 => by
    simp only [List.set, List.getD_cons_succ]
    rw [set_getD_self d l i]

theorem getD_replicate {α : Type} (d : α) (n i : Nat) (v : α) :
    (List.replicate n v).getD i d = v ∨ (List.replicate n v).getD i d = d := by
  induction n generalizing i with
  | zero => right; cases i <;> rfl
  | succ n ih =>
    cases i with
    | zero => left; rfl
    | succ i => simpa [List.replicate, List.getD_cons_succ] using ih i

theorem repLT_set {rep : List Bytes} (h : repLT rep) {v : Bytes} (hv : bytesLT v)
    (i : Nat) : repLT (rep.set i v) := by
  intro j
  rcases getD_set_cases [] rep i j v with hc | hc <;> rw [hc]
  · exact hv
  · exact h j

theorem repLT_getD {rep : List Bytes} (h : repLT rep) (i : Nat) :
    bytesLT (rep.getD i []) := h i

theorem bytesLT_append {a b : Bytes} (ha : bytesLT a) (hb : bytesLT b) :
    bytesLT (a ++ b) := by
  intro x hx
  rcases List.mem_append.mp hx with hx | hx
  · exact ha x hx
  · exact hb x hx

theorem rebalanceAux_zero (H : Bytes → Bytes) (rep : List Bytes) :
    rebalanceAux H rep 0 = rep := by
  rw [rebalanceAux]
  rfl

theorem rebalanceAux_pos (H : Bytes → Bytes) (rep : List Bytes) (current : Nat)
    (h : 0 < current) :
    rebalanceAux H rep current =
      rebalanceAux H
        (rep.set (get_parent current)
          (H (concatenate_hashes
            (rep.getD (get_left_child (get_parent current)) [])
            (rep.getD (get_right_child (get_parent current)) []))))
        (get_parent current) := by
  rw [rebalanceAux]
  simp [h]

theorem rebalanceAux_length (H : Bytes → Bytes) (rep : List Bytes) (current : Nat) :
    (rebalanceAux H rep current).length = rep.length := by
  induction current using Nat.strong_induction_on generalizing rep with
  | _ current ih =>
    rw [rebalanceAux]
    split
    · rename_i h
      rw [ih (get_parent current) (by simp only [get_parent]; omega)]
      exact List.length_set ..
    · rfl

theorem rebalanceAux_repLT (H : Bytes → Bytes) (hH : ∀ v, bytesLT (H v))
    (rep : List Bytes) (current : Nat) (h : repLT rep) :
    repLT (rebalanceAux H rep current) := by
  induction current using Nat.strong_induction_on generalizing rep with
  | _ current ih =>
    rw [rebalanceAux]
    split
    · rename_i hc
      exact ih (get_parent current) (by simp only [get_parent]; omega) _
        (repLT_set h (hH _) _)
    · exact h

/-- Frame property of the rebalance walk: a slot that is not a strict
ancestor of `current` (`0` counts as an ancestor, reached at the end of the
walk) keeps its digest. -/
theorem rebalanceAux_frame (H : Bytes → Bytes) (rep : List Bytes) (current j : Nat)
    (hj : ∀ k, 1 ≤ k → current / 2 ^ k ≠ j) :
    (rebalanceAux H rep current).getD j [] = rep.getD j [] := by
  induction current using Nat.strong_induction_on generalizing rep with
  | _ current ih =>
    rw [rebalanceAux]
    split
    · rename_i hc
      have hp : get_parent current ≠ j := by
        have := hj 1 (le_refl 1)
        simpa [get_parent] using this
      rw [ih (get_parent current) (by simp only [get_parent]; omega) _ ?_]
      · exact getD_set_ne [] rep _ j _ hp
      · intro k hk
        have : get_parent current / 2 ^ k = current / 2 ^ (k + 1) := by
          simp only [get_parent, Nat.div_div_eq_div_mul, pow_succ]
          ring_nf
        rw [this]
        exact hj (k + 1) (by omega)
    · rfl

/-- After the rebalance walk from `current`, every strict ancestor `p ≥ 1`
of `current` that lies inside the array holds the hash of its two children
in the final state. -/
theorem rebalanceAux_path (H : Bytes → Bytes) (rep : List Bytes) (current : Nat) :
    ∀ k, 1 ≤ k → 1 ≤ current / 2 ^ k → current / 2 ^ k < rep.length →
      (rebalanceAux H rep current).getD (current / 2 ^ k) [] =
        H ((rebalanceAux H rep current).getD (2 * (current / 2 ^ k)) [] ++
           (rebalanceAux H rep current).getD (2 * (current / 2 ^ k) + 1) []) := by
  induction current using Nat.strong_induction_on generalizing rep with
  | _ current ih =>
    intro k hk hp hlen
    have hcur2 : 2 ≤ current := by
      rcases Nat.lt_or_ge current 2 with h | h
      · exfalso
        have : current / 2 ^ k = 0 := Nat.div_eq_of_lt (by
          have : 2 ≤ 2 ^ k := by
            calc 2 = 2 ^ 1 := (pow_one 2).symm
            _ ≤ 2 ^ k := Nat.pow_le_pow_right (by norm_num) hk
          omega)
        omega
      · exact h
    rw [rebalanceAux]
    rw [dif_pos (by omega : 0 < current)]
    have hparent_pos : 1 ≤ get_parent current := by
      simp only [get_parent]; omega
    have hdivdiv : ∀ m, get_parent current / 2 ^ m = current / 2 ^ (m + 1) := by
      intro m
      simp only [get_parent, Nat.div_div_eq_div_mul, pow_succ]
      ring_nf
    rcases Nat.lt_or_ge 1 k with hk2 | hk1
    · -- deeper ancestor: handled by the recursive call
      have hp' : current / 2 ^ k = get_parent current / 2 ^ (k - 1) := by
        rw [hdivdiv]
        have hke : k - 1 + 1 = k := by omega
        rw [hke]
      rw [hp']
      exact ih (get_parent current) (by simp only [get_parent]; omega) _
        (k - 1) (by omega) (by rw [← hp']; exact hp)
        (by rw [List.length_set, ← hp']; exact hlen)
    · -- k = 1: the slot written by this step survives the recursive call
      have hk1' : k = 1 := by omega
      subst hk1'
      have hp1 : current / 2 ^ 1 = get_parent current := by
        simp [get_parent]
      rw [hp1]
      set p := get_parent current with hpdef
      set w := H (concatenate_hashes (rep.getD (get_left_child p) [])
        (rep.getD (get_right_child p) [])) with hwdef
      have hframe : ∀ j, p < j →
          (rebalanceAux H (rep.set p w) p).getD j [] = (rep.set p w).getD j [] := by
        intro j hjgt
        refine rebalanceAux_frame H _ p j ?_
        intro m hm
        have : p / 2 ^ m ≤ p := Nat.div_le_self _ _
        omega
      have hself : (rebalanceAux H (rep.set p w) p).getD p [] = w := by
        have : (rebalanceAux H (rep.set p w) p).getD p [] = (rep.set p w).getD p [] := by
          refine rebalanceAux_frame H _ p p ?_
          intro m hm
          have h2m : 2 ≤ 2 ^ m := by
            calc 2 = 2 ^ 1 := (pow_one 2).symm
            _ ≤ 2 ^ m := Nat.pow_le_pow_right (by norm_num) hm
          have : p / 2 ^ m ≤ p / 2 := Nat.div_le_div_left h2m (by norm_num)
          have : p / 2 < p := Nat.div_lt_self (by omega) (by norm_num)
          omega
        rw [this]
        exact getD_set_eq [] rep p w (by simpa [hp1] using hlen)
      have hleft : (rebalanceAux H (rep.set p w) p).getD (2 * p) [] = rep.getD (2 * p) [] := by
        rw [hframe (2 * p) (by omega)]
        exact getD_set_ne [] rep p (2 * p) w (by omega)
      have hright : (rebalanceAux H (rep.set p w) p).getD (2 * p + 1) []
          = rep.getD (2 * p + 1) [] := by
        rw [hframe (2 * p + 1) (by omega)]
        exact getD_set_ne [] rep p (2 * p + 1) w (by omega)
      rw [hself, hleft, hright, hwdef]
      simp [concatenate_hashes, get_left_child, get_right_child]

/-- If every in-range strict ancestor `p ≥ 1` of `current` already holds the
hash of its children, the rebalance walk changes nothing at indices `≥ 1`
(it can still overwrite the reserved slot 0). -/
theorem rebalanceAux_stable (H : Bytes → Bytes) (rep : List Bytes) (current : Nat)
    (hinv : ∀ k, 1 ≤ k → 1 ≤ current / 2 ^ k → current / 2 ^ k < rep.length →
      rep.getD (current / 2 ^ k) [] =
        H (rep.getD (2 * (current / 2 ^ k)) [] ++ rep.getD (2 * (current / 2 ^ k) + 1) [])) :
    ∀ j, 1 ≤ j → (rebalanceAux H rep current).getD j [] = rep.getD j [] := by
  induction current using Nat.strong_induction_on generalizing rep with
  | _ current ih =>
    intro j hj
    by_cases hc : 0 < current
    · rw [rebalanceAux_pos H rep current hc]
      set p := get_parent current with hpdef
      have hdivdiv : ∀ m, p / 2 ^ m = current / 2 ^ (m + 1) := by
        intro m
        simp only [hpdef, get_parent, Nat.div_div_eq_div_mul, pow_succ]
        ring_nf
      have hp1 : p = current / 2 ^ 1 := by simp [hpdef, get_parent]
      set w := H (concatenate_hashes (rep.getD (get_left_child p) [])
        (rep.getD (get_right_child p) [])) with hwdef
      by_cases hp0 : 1 ≤ p
      · -- the written value is what the slot already holds
        have hset : rep.set p w = rep := by
          by_cases hplen : p < rep.length
          · have hw : w = rep.getD p [] := by
              rw [hwdef]
              simp only [concatenate_hashes, get_left_child, get_right_child]
              rw [hp1]
              exact (hinv 1 (le_refl 1) (by rw [← hp1]; exact hp0)
                (by rw [← hp1]; exact hplen)).symm
            rw [hw]
            exact set_getD_self [] rep p
          · exact List.set_eq_of_length_le (by omega)
        rw [hset]
        refine ih p (by simp [hpdef, get_parent]; omega) rep ?_ j hj
        intro k hk
        rw [hdivdiv k]
        exact hinv (k + 1) (by omega)
      · -- p = 0: only the reserved slot is written
        have hp0' : p = 0 := by omega
        rw [hp0', rebalanceAux_zero]
        exact getD_set_ne [] rep 0 j w (by omega)
    · have hc0 : current = 0 := by omega
      rw [hc0, rebalanceAux_zero]

theorem lookupCache_cacheOK {H : Bytes → Bytes} {cache : List (Str × Bytes)}
    (hc : cacheOK H cache) {c : Bytes} (hlt : bytesLT c) {v : Bytes}
    (h : lookupCache cache (hexEncode c) = some v) : v = H c := by
  induction cache with
  | nil => simp [lookupCache] at h
  | cons kv rest ih =>
    unfold lookupCache at h
    split at h
    · rename_i heq
      obtain ⟨c2, hlt2, hk, hv⟩ := hc kv (List.mem_cons_self kv rest)
      cases h
      rw [hk] at heq
      rw [hexEncode_injective hlt2 hlt heq] at hv
      exact hv
    · exact ih (fun kv2 h2 => hc kv2 (List.mem_cons_of_mem _ h2)) h

theorem stepNode_spec {H : Bytes → Bytes} (hH : ∀ v, bytesLT (H v))
    (rep : List Bytes) (cache : List (Str × Bytes)) (i : Nat)
    (hrep : repLT rep) (hcache : cacheOK H cache) :
    (stepNode H (rep, cache) i).1 = stepNodeP H rep i ∧
    repLT (stepNode H (rep, cache) i).1 ∧
    cacheOK H (stepNode H (rep, cache) i).2 := by
  have hcon : bytesLT (concatenate_hashes (rep.getD (get_left_child i) [])
      (rep.getD (get_right_child i) [])) :=
    bytesLT_append (hrep _) (hrep _)
  unfold stepNode stepNodeP
  cases hl : lookupCache cache (hexEncode (concatenate_hashes
      (rep.getD (get_left_child i) []) (rep.getD (get_right_child i) []))) with
  | some cached =>
    have hcached : cached = H (concatenate_hashes (rep.getD (get_left_child i) [])
        (rep.getD (get_right_child i) [])) :=
      lookupCache_cacheOK hcache hcon hl
    simp only [hl, hcached]
    exact ⟨trivial, repLT_set hrep (hH _) i, hcache⟩
  | none =>
    simp only [hl]
    refine ⟨trivial, repLT_set hrep (hH _) i, ?_⟩
    intro kv hkv
    rcases List.mem_cons.mp hkv with hkv | hkv
    · exact ⟨_, hcon, by rw [hkv], by rw [hkv]⟩
    · exact hcache kv hkv

theorem buildRange_spec {H : Bytes → Bytes} (hH : ∀ v, bytesLT (H v)) :
    ∀ (n : Nat) (rep : List Bytes) (cache : List (Str × Bytes)) (start : Nat),
      repLT rep → cacheOK H cache →
      (buildRange H (rep, cache) start n).1 = buildRangeP H rep start n ∧
      repLT (buildRangeP H rep start n) ∧
      cacheOK H (buildRange H (rep, cache) start n).2
  | 0, rep, cache, start, hrep, hcache => ⟨rfl, hrep, hcache⟩
  | n + 1, rep, cache, start, hrep, hcache => by
    obtain ⟨h1, h2, h3⟩ := stepNode_spec hH rep cache start hrep hcache
    have hpair : stepNode H (rep, cache) start =
        ((stepNode H (rep, cache) start).1, (stepNode H (rep, cache) start).2) := rfl
    unfold buildRange buildRangeP
    rw [hpair, h1]
    exact buildRange_spec hH n (stepNodeP H rep start)
      (stepNode H (rep, cache) start).2 (start + 1) (h1 ▸ h2) h3

theorem buildLevels_eq {H : Bytes → Bytes} (hH : ∀ v, bytesLT (H v)) :
    ∀ (cd : Nat) (rep : List Bytes), repLT rep →
      buildLevels H rep cd = buildLevelsP H rep cd ∧ repLT (buildLevelsP H rep cd)
  | 0, rep, hrep => ⟨rfl, hrep⟩
  | cd + 1, rep, hrep => by
    obtain ⟨h1, h2, _⟩ := buildRange_spec hH (2 ^ (cd + 1)) rep [] (2 ^ (cd + 1))
      hrep (by intro kv hkv; simp at hkv)
    unfold buildLevels buildLevelsP
    rw [h1]
    exact buildLevels_eq hH cd (buildRangeP H rep (2 ^ (cd + 1)) (2 ^ (cd + 1))) h2

theorem buildRangeP_length (H : Bytes → Bytes) :
    ∀ (n : Nat) (rep : List Bytes) (start : Nat),
      (buildRangeP H rep start n).length = rep.length
  | 0, rep, start => rfl
  | n + 1, rep, start => by
    unfold buildRangeP
    rw [buildRangeP_length H n]
    exact List.length_set ..

theorem buildRangeP_frame (H : Bytes → Bytes) :
    ∀ (n : Nat) (rep : List Bytes) (start j : Nat), (j < start ∨ start + n ≤ j) →
      (buildRangeP H rep start n).getD j [] = rep.getD j []
  | 0, rep, start, j, _ => rfl
  | n + 1, rep, start, j, hj => by
    unfold buildRangeP
    rw [buildRangeP_frame H n _ (start + 1) j (by omega)]
    exact getD_set_ne [] rep start j _ (by omega)

theorem buildRangeP_effect (H : Bytes → Bytes) :
    ∀ (n : Nat) (rep : List Bytes) (start j : Nat), start + n ≤ 2 * start →
      start + n ≤ rep.length → start ≤ j → j < start + n →
      (buildRangeP H rep start n).getD j [] =
        H (rep.getD (2 * j) [] ++ rep.getD (2 * j + 1) [])
  | 0, rep, start, j, _, _, h1, h2 => by omega
  | n + 1, rep, start, j, hdouble, hlen, h1, h2 => by
    unfold buildRangeP
    rcases Nat.eq_or_lt_of_le h1 with hj | hj
    · -- j = start: written by this step, untouched afterwards
      rw [← hj]
      rw [buildRangeP_frame H n _ (start + 1) start (Or.inl (by omega))]
      unfold stepNodeP
      rw [getD_set_eq [] rep start _ (by omega)]
      simp [concatenate_hashes, get_left_child, get_right_child]
    · -- j later in the range: this step writes below the children of j
      rw [buildRangeP_effect H n (stepNodeP H rep start) (start + 1) j
        (by omega) (by unfold stepNodeP; rw [List.length_set]; omega) (by omega) (by omega)]
      unfold stepNodeP
      rw [getD_set_ne [] rep start (2 * j) _ (by omega),
        getD_set_ne [] rep start (2 * j + 1) _ (by omega)]

theorem buildLevelsP_length (H : Bytes → Bytes) :
    ∀ (cd : Nat) (rep : List Bytes), (buildLevelsP H rep cd).length = rep.length
  | 0, rep => rfl
  | cd + 1, rep => by
    unfold buildLevelsP
    rw [buildLevelsP_length H cd, buildRangeP_length H]

theorem buildLevelsP_frame (H : Bytes → Bytes) :
    ∀ (cd : Nat) (rep : List Bytes) (j : Nat), (j < 2 ∨ 2 ^ (cd + 1) ≤ j) →
      (buildLevelsP H rep cd).getD j [] = rep.getD j []
  | 0, rep, j, _ => rfl
  | cd + 1, rep, j, hj => by
    unfold buildLevelsP
    have hpow : (2 : Nat) ^ (cd + 1 + 1) = 2 ^ (cd + 1) * 2 := pow_succ 2 (cd + 1)
    have hone : (1 : Nat) ≤ 2 ^ (cd + 1) := Nat.one_le_two_pow
    rw [buildLevelsP_frame H cd _ j (by omega)]
    exact buildRangeP_frame H _ rep (2 ^ (cd + 1)) j (by omega)

theorem buildLevelsP_inv (H : Bytes → Bytes) :
    ∀ (cd : Nat) (rep : List Bytes), 2 ^ (cd + 1) ≤ rep.length →
      ∀ i, 2 ≤ i → i < 2 ^ (cd + 1) →
      (buildLevelsP H rep cd).getD i [] =
        H ((buildLevelsP H rep cd).getD (2 * i) [] ++
           (buildLevelsP H rep cd).getD (2 * i + 1) [])
  | 0, rep, _, i, h2, hlt => by omega
  | cd + 1, rep, hlen, i, h2, hlt => by
    have hpow : (2 : Nat) ^ (cd + 1 + 1) = 2 ^ (cd + 1) * 2 := pow_succ 2 (cd + 1)
    have hone : (1 : Nat) ≤ 2 ^ (cd + 1) := Nat.one_le_two_pow
    rcases Nat.lt_or_ge i (2 ^ (cd + 1)) with hsmall | hbig
    · -- level strictly above the one this pass writes: the recursion handles it
      unfold buildLevelsP
      exact buildLevelsP_inv H cd _ (by rw [buildRangeP_length H]; omega) i h2 hsmall
    · -- the level written by this pass
      unfold buildLevelsP
      have hchild : ∀ m, 2 ^ (cd + 1) * 2 ≤ m →
          (buildLevelsP H (buildRangeP H rep (2 ^ (cd + 1)) (2 ^ (cd + 1))) cd).getD m [] =
            rep.getD m [] := by
        intro m hm
        rw [buildLevelsP_frame H cd _ m (Or.inr (by omega))]
        exact buildRangeP_frame H _ rep _ m (Or.inr (by omega))
      rw [buildLevelsP_frame H cd _ i (Or.inr hbig)]
      rw [buildRangeP_effect H _ rep _ i (by omega) (by omega) hbig (by omega)]
      rw [hchild (2 * i) (by omega), hchild (2 * i + 1) (by omega)]

theorem setRange_length :
    ∀ (n : Nat) (rep : List Bytes) (start : Nat) (b : Bytes),
      (setRange rep start b n).length = rep.length
  | 0, rep, start, b => rfl
  | n + 1, rep, start, b => by
    unfold setRange
    rw [setRange_length n]
    exact List.length_set ..

theorem setRange_frame :
    ∀ (n : Nat) (rep : List Bytes) (start : Nat) (b : Bytes) (j : Nat),
      (j < start ∨ start + n ≤ j) →
      (setRange rep start b n).getD j [] = rep.getD j []
  | 0, rep, start, b, j, _ => rfl
  | n + 1, rep, start, b, j, hj => by
    unfold setRange
    rw [setRange_frame n _ (start + 1) b j (by omega)]
    exact getD_set_ne [] rep start j b (by omega)

theorem setRange_getD_in :
    ∀ (n : Nat) (rep : List Bytes) (start : Nat) (b : Bytes) (j : Nat),
      start + n ≤ rep.length → start ≤ j → j < start + n →
      (setRange rep start b n).getD j [] = b
  | 0, rep, start, b, j, _, h1, h2 => by omega
  | n + 1, rep, start, b, j, hlen, h1, h2 => by
    unfold setRange
    rcases Nat.eq_or_lt_of_le h1 with hj | hj
    · rw [← hj]
      rw [setRange_frame n _ (start + 1) b start (Or.inl (by omega))]
      exact getD_set_eq [] rep start b (by omega)
    · exact setRange_getD_in n (rep.set start b) (start + 1) b j
        (by rw [List.length_set]; omega) (by omega) (by omega)

theorem hex_to_bytes_bytesLT {s : Str} {b : Bytes} (h : hex_to_bytes s = some b) :
    bytesLT b := by
  simp only [hex_to_bytes] at h
  exact hexDecodeChars_bytesLT _ b h

theorem repLT_replicate (n : Nat) : repLT (List.replicate n ([] : Bytes)) := by
  intro i
  rcases getD_replicate ([] : Bytes) n i ([] : Bytes) with h | h <;>
    rw [h] <;> intro b hb <;> simp at hb

theorem setRange_repLT :
    ∀ (n : Nat) (rep : List Bytes) (start : Nat) (b : Bytes),
      repLT rep → bytesLT b → repLT (setRange rep start b n)
  | 0, rep, start, b, hrep, _ => hrep
  | n + 1, rep, start, b, hrep, hb => by
    unfold setRange
    exact setRange_repLT n _ (start + 1) b (repLT_set hrep hb start) hb

theorem new_eq_ge2 {H : Bytes → Bytes} (hH : ∀ v, bytesLT (H v)) (d : Nat) (leaf : Str)
    (hd : 2 ≤ d) (hd32 : d < 32) {b : Bytes} (hb : hex_to_bytes leaf = some b) :
    MerkleTree.new H d leaf = some ⟨d, newRepP H d b⟩ := by
  have hrep1 : repLT (rep1P d b) :=
    setRange_repLT _ _ _ _ (repLT_replicate _) (hex_to_bytes_bytesLT hb)
  obtain ⟨heq, _⟩ := buildLevels_eq hH (d - 2) (rep1P d b) hrep1
  unfold MerkleTree.new
  rw [if_neg (by omega), if_neg (by omega), if_neg (by omega), hb]
  simp only [newRepP, rep2P, rep1P] at heq ⊢
  rw [heq]

theorem rep1P_length (d : Nat) (b : Bytes) : (rep1P d b).length = 2 ^ d := by
  simp only [rep1P]
  rw [setRange_length]
  exact List.length_replicate ..

theorem rep2P_length (H : Bytes → Bytes) (d : Nat) (b : Bytes) :
    (rep2P H d b).length = 2 ^ d := by
  simp only [rep2P]
  rw [buildLevelsP_length, rep1P_length]

theorem new_good {H : Bytes → Bytes} (hH : ∀ v, bytesLT (H v)) {d : Nat} (hd : 2 ≤ d)
    {leaf : Str} {t : MerkleTree} (h : MerkleTree.new H d leaf = some t) : Good H d t := by
  have hd32 : d < 32 := by
    by_contra hge
    unfold MerkleTree.new at h
    rw [if_neg (by omega), if_neg (by omega), if_pos (by omega)] at h
    exact absurd h (by simp)
  obtain ⟨b, hb⟩ : ∃ b, hex_to_bytes leaf = some b := by
    cases hdec : hex_to_bytes leaf with
    | some b => exact ⟨b, rfl⟩
    | none =>
      unfold MerkleTree.new at h
      rw [if_neg (by omega), if_neg (by omega), if_neg (by omega), hdec] at h
      exact absurd h (by simp)
  rw [new_eq_ge2 hH d leaf hd hd32 hb] at h
  injection h with h'
  subst h'
  have hone : (1 : Nat) ≤ 2 ^ (d - 1) := Nat.one_le_two_pow
  have hmono : (2 : Nat) ^ (d - 1) ≤ 2 ^ d := Nat.pow_le_pow_right (by norm_num) (by omega)
  have hfour : (4 : Nat) ≤ 2 ^ d := by
    calc (4 : Nat) = 2 ^ 2 := by norm_num
    _ ≤ 2 ^ d := Nat.pow_le_pow_right (by norm_num) hd
  have hrep1 : repLT (rep1P d b) :=
    setRange_repLT _ _ _ _ (repLT_replicate _) (hex_to_bytes_bytesLT hb)
  have hrep2 : repLT (rep2P H d b) := (buildLevels_eq hH (d - 2) (rep1P d b) hrep1).2
  have hlen2 : (rep2P H d b).length = 2 ^ d := rep2P_length H d b
  have hdd : d - 2 + 1 = d - 1 := by omega
  have hinv2 : ∀ i, 2 ≤ i → i < 2 ^ (d - 1) →
      (rep2P H d b).getD i [] =
        H ((rep2P H d b).getD (2 * i) [] ++ (rep2P H d b).getD (2 * i + 1) []) := by
    intro i h2 hlt
    have := buildLevelsP_inv H (d - 2) (rep1P d b)
      (by rw [hdd, rep1P_length]; exact hmono) i h2 (by rw [hdd]; exact hlt)
    simpa [rep2P] using this
  refine ⟨rfl, ?_, ?_, ?_⟩
  · simp only [newRepP]
    rw [List.length_set]
    exact hlen2
  · simp only [newRepP]
    exact repLT_set hrep2 (hH _) 1
  · intro i h1 hlt
    simp only [newRepP]
    rcases Nat.eq_or_lt_of_le h1 with h1' | h1'
    · -- the root, written by the final step
      rw [← h1']
      rw [getD_set_eq [] (rep2P H d b) 1 _ (by omega)]
      rw [getD_set_ne [] (rep2P H d b) 1 (2 * 1) _ (by omega),
        getD_set_ne [] (rep2P H d b) 1 (2 * 1 + 1) _ (by omega)]
      simp [concatenate_hashes, get_left_child, get_right_child]
    · -- internal nodes written by the level loop
      rw [getD_set_ne [] (rep2P H d b) 1 i _ (by omega),
        getD_set_ne [] (rep2P H d b) 1 (2 * i) _ (by omega),
        getD_set_ne [] (rep2P H d b) 1 (2 * i + 1) _ (by omega)]
      exact hinv2 i (by omega) hlt

theorem set_shape {H : Bytes → Bytes} {t : MerkleTree} {i : Nat} {v : Str}
    {t2 : MerkleTree} (h : MerkleTree.set H t i v = some t2) :
    t2.depth = t.depth ∧ t2.representation.length = t.representation.length := by
  unfold MerkleTree.set at h
  cases hlr : MerkleTree.leaf_range t with
  | none => rw [hlr] at h; exact absurd h (by simp)
  | some r =>
    rw [hlr] at h
    simp only [] at h
    by_cases hi : r.1 ≤ i ∧ i < r.2
    · rw [if_pos hi] at h
      cases hdec : hex_to_bytes v with
      | none => rw [hdec] at h; exact absurd h (by simp)
      | some b =>
        rw [hdec] at h
        injection h with h'
        subst h'
        refine ⟨rfl, ?_⟩
        simp only []
        rw [rebalanceAux_length, List.length_set]
    · rw [if_neg hi] at h
      exact absurd h (by simp)

theorem applySets_shape (H : Bytes → Bytes) (t : MerkleTree) :
    ∀ ops, (applySets H t ops).depth = t.depth ∧
      (applySets H t ops).representation.length = t.representation.length := by
  intro ops
  induction ops generalizing t with
  | nil => exact ⟨rfl, rfl⟩
  | cons op rest ih =>
    unfold applySets
    cases hs : MerkleTree.set H t op.1 op.2 with
    | none => exact ih t
    | some t2 =>
      obtain ⟨h1, h2⟩ := set_shape hs
      obtain ⟨h3, h4⟩ := ih t2
      exact ⟨h3.trans h1, h4.trans h2⟩

theorem leaf_range_good {H : Bytes → Bytes} {d : Nat} (hd : 2 ≤ d) {t : MerkleTree}
    (hg : Good H d t) (hd32 : d < 33) :
    MerkleTree.leaf_range t = some (2 ^ (d - 1), 2 ^ d) := by
  obtain ⟨hdep, hlen, -, -⟩ := hg
  unfold MerkleTree.leaf_range
  rw [hdep, hlen]
  rw [if_neg (by omega), if_neg (by omega)]

theorem set_good {H : Bytes → Bytes} (hH : ∀ v, bytesLT (H v)) {d : Nat} (hd : 2 ≤ d)
    (hd32 : d < 33) {t t2 : MerkleTree} (hg : Good H d t) {i : Nat} {v : Str}
    (h : MerkleTree.set H t i v = some t2) : Good H d t2 := by
  obtain ⟨hdep, hlen, hLT, hinv⟩ := hg
  have hlr : MerkleTree.leaf_range t = some (2 ^ (d - 1), 2 ^ d) :=
    leaf_range_good hd ⟨hdep, hlen, hLT, hinv⟩ hd32
  unfold MerkleTree.set at h
  rw [hlr] at h
  simp only [] at h
  by_cases hi : 2 ^ (d - 1) ≤ i ∧ i < 2 ^ d
  · rw [if_pos hi] at h
    cases hdec : hex_to_bytes v with
    | none => rw [hdec] at h; exact absurd h (by simp)
    | some b =>
      rw [hdec] at h
      injection h with h'
      subst h'
      have hone : (1 : Nat) ≤ 2 ^ (d - 1) := Nat.one_le_two_pow
      have hsetlen : (t.representation.set i b).length = 2 ^ d := by
        rw [List.length_set]; exact hlen
      refine ⟨hdep, ?_, ?_, ?_⟩
      · simp only []
        rw [rebalanceAux_length, hsetlen]
      · exact rebalanceAux_repLT H hH _ i (repLT_set hLT (hex_to_bytes_bytesLT hdec) i)
      · intro j hj1 hjlt
        simp only []
        by_cases hanc : ∃ k, 1 ≤ k ∧ i / 2 ^ k = j
        · obtain ⟨k, hk1, hkj⟩ := hanc
          have := rebalanceAux_path H (t.representation.set i b) i k hk1
            (by rw [hkj]; exact hj1) (by rw [hkj, hsetlen]; omega)
          rw [hkj] at this
          exact this
        · push_neg at hanc
          have hnotj : ∀ k, 1 ≤ k → i / 2 ^ k ≠ j := fun k hk => hanc k hk
          have hdivsucc : ∀ k, i / 2 ^ k / 2 = i / 2 ^ (k + 1) := by
            intro k
            rw [Nat.div_div_eq_div_mul, ← pow_succ]
          have hinotj : i ≠ j := by omega
          have hnot2j : ∀ k, 1 ≤ k → i / 2 ^ k ≠ 2 * j := by
            intro k hk hcontra
            exact hnotj (k + 1) (by omega) (by rw [← hdivsucc k, hcontra]; omega)
          have hnot2j1 : ∀ k, 1 ≤ k → i / 2 ^ k ≠ 2 * j + 1 := by
            intro k hk hcontra
            exact hnotj (k + 1) (by omega) (by rw [← hdivsucc k, hcontra]; omega)
          have hi2j : i ≠ 2 * j := by
            intro hcontra
            exact hnotj 1 (le_refl 1) (by rw [pow_one, hcontra]; omega)
          have hi2j1 : i ≠ 2 * j + 1 := by
            intro hcontra
            exact hnotj 1 (le_refl 1) (by rw [pow_one, hcontra]; omega)
          rw [rebalanceAux_frame H _ i j hnotj,
            getD_set_ne [] t.representation i j b hinotj,
            rebalanceAux_frame H _ i (2 * j) hnot2j,
            getD_set_ne [] t.representation i (2 * j) b hi2j,
            rebalanceAux_frame H _ i (2 * j + 1) hnot2j1,
            getD_set_ne [] t.representation i (2 * j + 1) b hi2j1]
          exact hinv j hj1 hjlt
  · rw [if_neg hi] at h
    exact absurd h (by simp)

theorem applySets_good {H : Bytes → Bytes} (hH : ∀ v, bytesLT (H v)) {d : Nat}
    (hd : 2 ≤ d) (hd32 : d < 33) {t : MerkleTree} (hg : Good H d t) :
    ∀ ops, Good H d (applySets H t ops) := by
  intro ops
  induction ops generalizing t with
  | nil => exact hg
  | cons op rest ih =>
    unfold applySets
    cases hs : MerkleTree.set H t op.1 op.2 with
    | none => exact ih hg
    | some t2 => exact ih (set_good hH hd hd32 hg hs)

theorem proofAux_le_one (rep : List Bytes) (current : Nat) (h : current ≤ 1) :
    proofAux rep current = [] := by
  rw [proofAux]
  rw [dif_neg (by omega)]

theorem proofAux_even (rep : List Bytes) (current : Nat) (h : 1 < current)
    (he : current % 2 = 0) :
    proofAux rep current =
      (Handedness.Left,
        str0x ++ hexEncode (rep.getD (get_right_child (get_parent current)) []))
        :: proofAux rep (get_parent current) := by
  rw [proofAux]
  rw [dif_pos h]
  simp [he]

theorem proofAux_odd (rep : List Bytes) (current : Nat) (h : 1 < current)
    (ho : current % 2 = 1) :
    proofAux rep current =
      (Handedness.Right,
        str0x ++ hexEncode (rep.getD (get_left_child (get_parent current)) []))
        :: proofAux rep (get_parent current) := by
  rw [proofAux]
  rw [dif_pos h]
  simp [ho]

theorem verify_nil (H : Bytes → Bytes) (s : Str) : MerkleTree.verify H [] s = some s := rfl

theorem verify_cons {H : Bytes → Bytes} (p : Handedness × Str)
    (path : List (Handedness × Str)) (s s2 : Str)
    (h : verifyStep H (some s) p = some s2) :
    MerkleTree.verify H (p :: path) s = MerkleTree.verify H path s2 := by
  unfold MerkleTree.verify
  rw [List.foldl_cons, h]

theorem verifyStep_left {H : Bytes → Bytes} {a sib : Bytes} (ha : bytesLT a)
    (hs : bytesLT sib) :
    verifyStep H (some (str0x ++ hexEncode a)) (Handedness.Left, str0x ++ hexEncode sib) =
      some (str0x ++ hexEncode (H (a ++ sib))) := by
  simp only [verifyStep, hex_to_bytes_0x_hexEncode a ha, hex_to_bytes_0x_hexEncode sib hs,
    concatenate_hashes]

theorem verifyStep_right {H : Bytes → Bytes} {a sib : Bytes} (ha : bytesLT a)
    (hs : bytesLT sib) :
    verifyStep H (some (str0x ++ hexEncode a)) (Handedness.Right, str0x ++ hexEncode sib) =
      some (str0x ++ hexEncode (H (sib ++ a))) := by
  simp only [verifyStep, hex_to_bytes_0x_hexEncode a ha, hex_to_bytes_0x_hexEncode sib hs,
    concatenate_hashes]

/-- Core of the round trip: walking the proof path from any node `idx ≥ 1`
whose strict ancestors all satisfy the hash invariant recomputes the hex
encoding of the stored root digest. -/
theorem verify_proofAux {H : Bytes → Bytes} (rep : List Bytes) (hrep : repLT rep) :
    ∀ idx, 1 ≤ idx →
      (∀ k, 1 ≤ k → 1 ≤ idx / 2 ^ k →
        rep.getD (idx / 2 ^ k) [] =
          H (rep.getD (2 * (idx / 2 ^ k)) [] ++ rep.getD (2 * (idx / 2 ^ k) + 1) [])) →
      MerkleTree.verify H (proofAux rep idx) (str0x ++ hexEncode (rep.getD idx [])) =
        some (str0x ++ hexEncode (rep.getD 1 [])) := by
  intro idx
  induction idx using Nat.strong_induction_on with
  | _ idx ih =>
    intro h1 hinv
    rcases Nat.lt_or_ge idx 2 with hlt | hge
    · have hidx1 : idx = 1 := by omega
      subst hidx1
      rw [proofAux_le_one rep 1 (le_refl 1)]
      exact verify_nil H _
    · have hp1 : 1 ≤ get_parent idx := by simp only [get_parent]; omega
      have hppow : idx / 2 ^ 1 = get_parent idx := by simp [get_parent]
      have hroot : rep.getD (get_parent idx) [] =
          H (rep.getD (2 * get_parent idx) [] ++ rep.getD (2 * get_parent idx + 1) []) := by
        have := hinv 1 (le_refl 1) (by rw [hppow]; exact hp1)
        rw [hppow] at this
        exact this
      have hinv' : ∀ k, 1 ≤ k → 1 ≤ get_parent idx / 2 ^ k →
          rep.getD (get_parent idx / 2 ^ k) [] =
            H (rep.getD (2 * (get_parent idx / 2 ^ k)) [] ++
               rep.getD (2 * (get_parent idx / 2 ^ k) + 1) []) := by
        intro k hk
        have hstep : get_parent idx / 2 ^ k = idx / 2 ^ (k + 1) := by
          simp only [get_parent, Nat.div_div_eq_div_mul, ← pow_succ']
        rw [hstep]
        exact hinv (k + 1) (by omega)
      have hrec := ih (get_parent idx) (by simp only [get_parent]; omega) hp1 hinv'
      rcases Nat.even_or_odd idx with he | ho
      · -- idx is a left child
        have he' : idx % 2 = 0 := Nat.even_iff.mp he
        have hidx : 2 * get_parent idx = idx := by simp only [get_parent]; omega
        rw [proofAux_even rep idx (by omega) he']
        rw [verify_cons _ _ _ _
          (verifyStep_left (hrep idx) (hrep (get_right_child (get_parent idx))))]
        simp only [get_right_child] at *
        rw [show rep.getD idx [] ++ rep.getD (2 * get_parent idx + 1) [] =
            rep.getD (2 * get_parent idx) [] ++ rep.getD (2 * get_parent idx + 1) []
          from by rw [hidx], ← hroot]
        exact hrec
      · -- idx is a right child
        have ho' : idx % 2 = 1 := Nat.odd_iff.mp ho
        have hidx : 2 * get_parent idx + 1 = idx := by simp only [get_parent]; omega
        rw [proofAux_odd rep idx (by omega) ho']
        rw [verify_cons _ _ _ _
          (verifyStep_right (hrep idx) (hrep (get_left_child (get_parent idx))))]
        simp only [get_left_child] at *
        rw [show rep.getD (2 * get_parent idx) [] ++ rep.getD idx [] =
            rep.getD (2 * get_parent idx) [] ++ rep.getD (2 * get_parent idx + 1) []
          from by rw [hidx], ← hroot]
        exact hrec

theorem Hc_LT : ∀ v, bytesLT (Hc v) := by
  intro v b hb
  simp [Hc] at hb
  omega

theorem set_success {H : Bytes → Bytes} {t : MerkleTree} {i : Nat} {v : Str}
    {b : Bytes} {r : Nat × Nat} (hr : MerkleTree.leaf_range t = some r)
    (hi : r.1 ≤ i ∧ i < r.2) (hb : hex_to_bytes v = some b) :
    MerkleTree.set H t i v =
      some ⟨t.depth, rebalanceAux H (t.representation.set i b) i⟩ := by
  unfold MerkleTree.set
  rw [hr]
  simp only []
  rw [if_pos hi, hb]

theorem new_depth_lt32 {H : Bytes → Bytes} {d : Nat} {leaf : Str} {t : MerkleTree}
    (hd : 2 ≤ d) (h : MerkleTree.new H d leaf = some t) : d < 32 := by
  by_contra hge
  unfold MerkleTree.new at h
  rw [if_neg (by omega), if_neg (by omega), if_pos (by omega)] at h
  exact absurd h (by simp)

theorem stepNode_length (H : Bytes → Bytes) (st : List Bytes × List (Str × Bytes))
    (i : Nat) : (stepNode H st i).1.length = st.1.length := by
  unfold stepNode
  cases hl : lookupCache st.2 (hexEncode (concatenate_hashes
      (st.1.getD (get_left_child i) []) (st.1.getD (get_right_child i) []))) <;>
    simp [hl, List.length_set]

theorem buildRange_length (H : Bytes → Bytes) :
    ∀ (n : Nat) (st : List Bytes × List (Str × Bytes)) (start : Nat),
      (buildRange H st start n).1.length = st.1.length
  | 0, st, start => rfl
  | n + 1, st, start => by
    unfold buildRange
    rw [buildRange_length H n]
    exact stepNode_length ..

theorem buildLevels_length (H : Bytes → Bytes) :
    ∀ (cd : Nat) (rep : List Bytes), (buildLevels H rep cd).length = rep.length
  | 0, rep => rfl
  | cd + 1, rep => by
    unfold buildLevels
    rw [buildLevels_length H cd]
    exact buildRange_length ..

/-- Depth tag and array length of every constructed tree (2 slots at depth
0, 4 slots at depth 1, `2^depth` otherwise). -/
theorem new_shape {H : Bytes → Bytes} {d : Nat} {leaf : Str} {t : MerkleTree}
    (h : MerkleTree.new H d leaf = some t) :
    t.depth = d ∧
    t.representation.length = (if d = 0 then 2 else if d = 1 then 4 else 2 ^ d) := by
  by_cases h0 : d = 0
  · subst h0
    unfold MerkleTree.new at h
    rw [if_pos rfl] at h
    cases hdec : hex_to_bytes leaf with
    | none => rw [hdec] at h; exact absurd h (by simp)
    | some b =>
      rw [hdec] at h
      injection h with h'
      subst h'
      exact ⟨rfl, rfl⟩
  · by_cases h1 : d = 1
    · subst h1
      unfold MerkleTree.new at h
      rw [if_neg (by omega), if_pos rfl] at h
      cases hdec : hex_to_bytes leaf with
      | none => rw [hdec] at h; exact absurd h (by simp)
      | some b =>
        rw [hdec] at h
        injection h with h'
        subst h'
        exact ⟨rfl, rfl⟩
    · have hd : 2 ≤ d := by omega
      have h32 := new_depth_lt32 hd h
      unfold MerkleTree.new at h
      rw [if_neg h0, if_neg h1, if_neg (by omega)] at h
      cases hdec : hex_to_bytes leaf with
      | none => rw [hdec] at h; exact absurd h (by simp)
      | some b =>
        rw [hdec] at h
        injection h with h'
        subst h'
        refine ⟨rfl, ?_⟩
        rw [if_neg h0, if_neg h1]
        simp only []
        rw [List.length_set, buildLevels_length, setRange_length]
        exact List.length_replicate ..

theorem proofAux_length_step (rep : List Bytes) (idx : Nat) (h : 1 < idx) :
    (proofAux rep idx).length = (proofAux rep (get_parent idx)).length + 1 := by
  rcases Nat.even_or_odd idx with he | ho
  · rw [proofAux_even rep idx h (Nat.even_iff.mp he)]
    rfl
  · rw [proofAux_odd rep idx h (Nat.odd_iff.mp ho)]
    rfl

theorem proofAux_length (rep : List Bytes) :
    ∀ (dlev idx : Nat), 2 ^ dlev ≤ idx → idx < 2 ^ (dlev + 1) →
      (proofAux rep idx).length = dlev
  | 0, idx, h1, h2 => by
    have hidx : idx = 1 := by
      rw [pow_zero] at h1
      rw [pow_one] at h2
      omega
    subst hidx
    rw [proofAux_le_one rep 1 (le_refl 1)]
    rfl
  | dlev + 1, idx, h1, h2 => by
    have hone : (1 : Nat) ≤ 2 ^ dlev := Nat.one_le_two_pow
    have hpow1 : (2 : Nat) ^ (dlev + 1) = 2 ^ dlev * 2 := pow_succ 2 dlev
    have hpow2 : (2 : Nat) ^ (dlev + 1 + 1) = 2 ^ (dlev + 1) * 2 := pow_succ 2 (dlev + 1)
    have hgt : 1 < idx := by omega
    rw [proofAux_length_step rep idx hgt]
    rw [proofAux_length rep dlev (get_parent idx)
      (by simp only [get_parent]; omega) (by simp only [get_parent]; omega)]

theorem eval_new2 :
    MerkleTree.new Hc 2 (str "0xab") = some ⟨2, [[], [88], [171], [171]]⟩ := by
  decide

theorem eval_new1 :
    MerkleTree.new Hc 1 (str "0xab") = some ⟨1, [[], [88], [171], [171]]⟩ := by
  decide

theorem eval_reb2 :
    rebalanceAux Hc ([[], [88], [171], [171]].set 2 [1]) 2 =
      [[175], [174], [1], [171]] := by
  rw [rebalanceAux_pos _ _ _ (by norm_num)]
  norm_num [get_parent, get_left_child, get_right_child]
  rw [rebalanceAux_pos _ _ _ (by norm_num)]
  norm_num [get_parent, get_left_child, get_right_child]
  rw [rebalanceAux_zero]
  decide

theorem eval_set2 :
    MerkleTree.set Hc ⟨2, [[], [88], [171], [171]]⟩ 2 (str "0x01") =
      some ⟨2, [[175], [174], [1], [171]]⟩ := by
  rw [@set_success Hc ⟨2, [[], [88], [171], [171]]⟩ 2 (str "0x01") [1] (2, 4)
    (by decide) (by decide) (by decide)]
  simp only []
  rw [eval_reb2]

theorem eval_reb1 :
    rebalanceAux Hc ([[], [88], [171], [171]].set 1 [1, 2]) 1 =
      [[5], [1, 2], [171], [171]] := by
  rw [rebalanceAux_pos _ _ _ (by norm_num)]
  norm_num [get_parent, get_left_child, get_right_child]
  rw [rebalanceAux_zero]
  decide

theorem eval_set1 :
    MerkleTree.set Hc ⟨1, [[], [88], [171], [171]]⟩ 1 (str "0x0102") =
      some ⟨1, [[5], [1, 2], [171], [171]]⟩ := by
  rw [@set_success Hc ⟨1, [[], [88], [171], [171]]⟩ 1 (str "0x0102") [1, 2] (1, 4)
    (by decide) (by decide) (by decide)]
  simp only []
  rw [eval_reb1]

theorem eval_proofAux1 :
    proofAux [[5], [1, 2], [171], [171]] 2 =
      [(Handedness.Left, str0x ++ hexEncode [171])] := by
  rw [proofAux_even _ _ (by norm_num) (by norm_num)]
  norm_num [get_parent, get_right_child]
  rw [proofAux_le_one _ _ (by norm_num [get_parent])]

theorem eval_proof1 :
    MerkleTree.proof ⟨1, [[5], [1, 2], [171], [171]]⟩ 1 =
      some [(Handedness.Left, str0x ++ hexEncode [171])] := by
  unfold MerkleTree.proof
  rw [show MerkleTree.leaf_range ⟨1, [[5], [1, 2], [171], [171]]⟩ = some (1, 4) from by decide]
  simp only []
  rw [if_pos (by norm_num)]
  rw [show (1 : Nat) + 1 = 2 from rfl]
  rw [eval_proofAux1]

theorem eval_proofAux2 :
    proofAux [[], [88], [171], [171]] 2 =
      [(Handedness.Left, str0x ++ hexEncode [171])] := by
  rw [proofAux_even _ _ (by norm_num) (by norm_num)]
  norm_num [get_parent, get_right_child]
  rw [proofAux_le_one _ _ (by norm_num [get_parent])]

theorem eval_proof2 :
    MerkleTree.proof ⟨2, [[], [88], [171], [171]]⟩ 0 =
      some [(Handedness.Left, str0x ++ hexEncode [171])] := by
  unfold MerkleTree.proof
  rw [show MerkleTree.leaf_range ⟨2, [[], [88], [171], [171]]⟩ = some (2, 4) from by decide]
  simp only []
  rw [if_pos (by norm_num)]
  rw [show (2 : Nat) + 0 = 2 from rfl]
  rw [eval_proofAux2]

/-- C2: for every tree of depth `d ≥ 2` built by construction, and still
after every completed `set` operation, every internal node `i` stores
`H(nodes[left(i)] ++ nodes[right(i)])` (left child first; leaves exempt).
The internal nodes of the depth-`d` array are exactly the indices
`1 ≤ i < 2^(d-1)`. -/
theorem C2_internal_node_invariant {H : Bytes → Bytes} (hH : ∀ v, bytesLT (H v))
    {d : Nat} (hd : 2 ≤ d) {leaf : Str} {t0 : MerkleTree}
    (hnew : MerkleTree.new H d leaf = some t0) (ops : List (Nat × Str)) :
    ∀ i, 1 ≤ i → i < 2 ^ (d - 1) →
      (applySets H t0 ops).representation.getD i [] =
        H (concatenate_hashes
          ((applySets H t0 ops).representation.getD (get_left_child i) [])
          ((applySets H t0 ops).representation.getD (get_right_child i) [])) := by
  have hd32 : d < 33 := by
    have := new_depth_lt32 hd hnew
    omega
  have hg := applySets_good hH hd hd32 (new_good hH hd hnew) ops
  intro i h1 h2
  have hi := hg.2.2.2 i h1 h2
  simpa [concatenate_hashes, get_left_child, get_right_child] using hi

/-- Witness for C2 at a concrete input: depth 2, uniform leaf `0xab`, no
mutations, internal node 1. -/
theorem C2_internal_node_invariant_witness :
    (∀ v, bytesLT (Hc v)) ∧ 2 ≤ 2 ∧
    MerkleTree.new Hc 2 (str "0xab") = some ⟨2, [[], [88], [171], [171]]⟩ ∧
    (1 ≤ 1 ∧ 1 < 2 ^ (2 - 1)) ∧
    (applySets Hc ⟨2, [[], [88], [171], [171]]⟩ []).representation.getD 1 [] =
      Hc (concatenate_hashes
        ((applySets Hc ⟨2, [[], [88], [171], [171]]⟩ []).representation.getD (get_left_child 1) [])
        ((applySets Hc ⟨2, [[], [88], [171], [171]]⟩ []).representation.getD (get_right_child 1) [])) := by
  refine ⟨Hc_LT, le_refl 2, eval_new2, ⟨le_refl 1, by norm_num⟩, ?_⟩
  exact C2_internal_node_invariant Hc_LT (le_refl 2) eval_new2 [] 1 (le_refl 1) (by norm_num)

/-- C7: rebalancing twice in a row from the same index with no intervening
`set` yields the same root both times (the walk re-writes every ancestor
`≥ 1` with the value it already holds; only the reserved slot 0 can keep
changing, and `root()` never reads it). -/
theorem C7_rebalance_idempotent (H : Bytes → Bytes) (t : MerkleTree) (i : Nat) :
    (MerkleTree.rebalance H (MerkleTree.rebalance H t i) i).root =
      (MerkleTree.rebalance H t i).root := by
  unfold MerkleTree.rebalance MerkleTree.root
  simp only []
  have hstable := rebalanceAux_stable H (rebalanceAux H t.representation i) i
    (fun k hk hp hlen =>
      rebalanceAux_path H t.representation i k hk hp
        (by rwa [rebalanceAux_length] at hlen))
    1 (le_refl 1)
  rw [hstable]

/-- C8: the index arithmetic is a bijection: decomposing `2^d + o` gives
back `(d, o)` for any in-range offset, and recomposing the decomposition
of any index `≥ 1` gives back the index.  The `u32`-representability
bounds of the claim are carried as hypotheses. -/
theorem C8_index_bijection (d o idx : Nat) (ho : o < 2 ^ d)
    (hrep : 2 ^ d + o < 2 ^ 32) (hidx : 1 ≤ idx) (hidx32 : idx < 2 ^ 32) :
    get_depth_and_offset (get_node_index d o) = some (d, o) ∧
    (get_depth_and_offset idx).map (fun p => get_node_index p.1 p.2) = some idx := by
  have hone : (1 : Nat) ≤ 2 ^ d := Nat.one_le_two_pow
  constructor
  · unfold get_node_index get_depth_and_offset
    rw [if_neg (by omega)]
    simp only []
    have hsub : 2 ^ d + o - 1 + 1 = 2 ^ d + o := by omega
    rw [hsub]
    have hlog : Nat.log2 (2 ^ d + o) = d := by
      rw [Nat.log2_eq_log_two]
      refine Nat.log_eq_of_pow_le_of_lt_pow (by omega) ?_
      have hpow : (2 : Nat) ^ (d + 1) = 2 ^ d * 2 := pow_succ 2 d
      omega
    rw [hlog]
    congr 2
    omega
  · unfold get_depth_and_offset
    rw [if_neg (by omega)]
    simp only [Option.map_some]
    have hsub : idx - 1 + 1 = idx := by omega
    rw [hsub]
    unfold get_node_index
    have hle : 2 ^ Nat.log2 idx ≤ idx := by
      rw [Nat.log2_eq_log_two]
      exact Nat.pow_log_le_self 2 (by omega)
    show some (2 ^ Nat.log2 idx + (idx - 2 ^ Nat.log2 idx)) = some idx
    congr 1
    omega

/-- Witness for C8 at concrete inputs `(d, o) = (3, 5)` and `idx = 11`. -/
theorem C8_index_bijection_witness :
    5 < 2 ^ 3 ∧ 2 ^ 3 + 5 < 2 ^ 32 ∧ 1 ≤ 11 ∧ 11 < 2 ^ 32 ∧
    get_depth_and_offset (get_node_index 3 5) = some (3, 5) ∧
    (get_depth_and_offset 11).map (fun p => get_node_index p.1 p.2) = some 11 := by
  obtain ⟨h1, h2⟩ := C8_index_bijection 3 5 11 (by norm_num) (by norm_num)
    (by norm_num) (by norm_num)
  exact ⟨by norm_num, by norm_num, by norm_num, by norm_num, h1, h2⟩

/-- C9: with a valid hexadecimal initial leaf, depth 0 stores the decoded
bytes as the single root node with no hash applied (and `root()` re-encodes
exactly those bytes), while depth 1 stores the decoded leaf twice and the
root is `H(leaf ++ leaf)`. -/
theorem C9_small_depth_construction (H : Bytes → Bytes) (leaf : Str) (b : Bytes)
    (hb : hex_to_bytes leaf = some b) :
    MerkleTree.new H 0 leaf = some ⟨0, [[], b]⟩ ∧
    (MerkleTree.new H 0 leaf).map MerkleTree.root = some (str0x ++ hexEncode b) ∧
    MerkleTree.new H 1 leaf = some ⟨1, [[], H (concatenate_hashes b b), b, b]⟩ ∧
    (MerkleTree.new H 1 leaf).map MerkleTree.root =
      some (str0x ++ hexEncode (H (concatenate_hashes b b))) := by
  have h0 : MerkleTree.new H 0 leaf = some ⟨0, [[], b]⟩ := by
    unfold MerkleTree.new
    rw [if_pos rfl, hb]
  have h1 : MerkleTree.new H 1 leaf = some ⟨1, [[], H (concatenate_hashes b b), b, b]⟩ := by
    unfold MerkleTree.new
    rw [if_neg (by omega), if_pos rfl, hb]
  refine ⟨h0, ?_, h1, ?_⟩
  · rw [h0]
    rfl
  · rw [h1]
    rfl

/-- Witness for C9 at the concrete leaf `"0xab"`. -/
theorem C9_small_depth_construction_witness :
    hex_to_bytes (str "0xab") = some [171] ∧
    MerkleTree.new Hc 0 (str "0xab") = some ⟨0, [[], [171]]⟩ ∧
    (MerkleTree.new Hc 0 (str "0xab")).map MerkleTree.root =
      some (str0x ++ hexEncode [171]) ∧
    MerkleTree.new Hc 1 (str "0xab") =
      some ⟨1, [[], Hc (concatenate_hashes [171] [171]), [171], [171]]⟩ ∧
    (MerkleTree.new Hc 1 (str "0xab")).map MerkleTree.root =
      some (str0x ++ hexEncode (Hc (concatenate_hashes [171] [171]))) := by
  have hb : hex_to_bytes (str "0xab") = some [171] := by decide
  obtain ⟨a1, a2, a3, a4⟩ := C9_small_depth_construction Hc (str "0xab") [171] hb
  exact ⟨hb, a1, a2, a3, a4⟩

/-- C10: `verify` on an empty proof path returns the supplied leaf-hash
string verbatim — the fold body never runs, so the string is never
decoded, validated, re-encoded or prefixed, and no error is possible even
for non-hexadecimal input. -/
theorem C10_verify_empty_path (H : Bytes → Bytes) (s : Str) :
    MerkleTree.verify H [] s = some s := rfl

/-- C1 counterexample: the claim fails at depth 1.  `leaf_range()` of a
depth-1 tree is `[1, 4)`, so `set(1, ·)` succeeds and overwrites the root
digest itself (rebalancing only rewrites the reserved slot 0).  After
`set(1, "0x0102")`, offset `1` addresses slot 2 and its round trip
recomputes `H(leaf ++ sibling) = "0x58" ≠ root() = "0x0102"`. -/
theorem C1_counterexample :
    (MerkleTree.new Hc 1 (str "0xab")).map
        (fun t0 => applySets Hc t0 [(1, str "0x0102")]) =
      some ⟨1, [[5], [1, 2], [171], [171]]⟩ ∧
    MerkleTree.leaf_range ⟨1, [[5], [1, 2], [171], [171]]⟩ = some (1, 4) ∧
    MerkleTree.proof ⟨1, [[5], [1, 2], [171], [171]]⟩ 1 =
      some [(Handedness.Left, str0x ++ hexEncode [171])] ∧
    MerkleTree.verify Hc [(Handedness.Left, str0x ++ hexEncode [171])]
      (str0x ++ hexEncode (([[5], [1, 2], [171], [171]] : List Bytes).getD 2 [])) =
      some (str "0x58") ∧
    MerkleTree.root ⟨1, [[5], [1, 2], [171], [171]]⟩ = str "0x0102" ∧
    (str "0x58" : Str) ≠ str "0x0102" := by
  refine ⟨?_, by decide, eval_proof1, by decide, by decide, by decide⟩
  rw [eval_new1]
  show some (applySets Hc ⟨1, [[], [88], [171], [171]]⟩ [(1, str "0x0102")]) =
    some ⟨1, [[5], [1, 2], [171], [171]]⟩
  congr 1
  unfold applySets
  simp only []
  rw [eval_set1]
  rfl

/-- C1 (amended): for every tree of depth `d ≥ 2`, after construction and
any sequence of successful `set` operations, every leaf-relative offset
`k` in `leafRange()` round-trips: `proof(k)` succeeds and
`verify(proof(k), h) = root()` where `h` is the 0x-prefixed hex encoding
of the digest stored at that leaf slot.  (At depth 1 the claim fails:
`leaf_range()` also admits the root, and a `set` there breaks the round
trip — see the counterexample.) -/
theorem C1_roundtrip {H : Bytes → Bytes} (hH : ∀ v, bytesLT (H v)) {d : Nat} (hd : 2 ≤ d)
    {leaf : Str} {t0 : MerkleTree} (hnew : MerkleTree.new H d leaf = some t0)
    (ops : List (Nat × Str)) {r : Nat × Nat}
    (hr : MerkleTree.leaf_range (applySets H t0 ops) = some r) {k : Nat}
    (hk : k < r.2 - r.1) :
    MerkleTree.proof (applySets H t0 ops) k =
      some (proofAux (applySets H t0 ops).representation (r.1 + k)) ∧
    MerkleTree.verify H (proofAux (applySets H t0 ops).representation (r.1 + k))
      (str0x ++ hexEncode ((applySets H t0 ops).representation.getD (r.1 + k) [])) =
      some (MerkleTree.root (applySets H t0 ops)) := by
  have hd33 : d < 33 := by
    have := new_depth_lt32 hd hnew
    omega
  obtain ⟨hdep, hlen, hLT, hinv⟩ := applySets_good hH hd hd33 (new_good hH hd hnew) ops
  have hone : (1 : Nat) ≤ 2 ^ (d - 1) := Nat.one_le_two_pow
  have hpow : (2 : Nat) ^ d = 2 ^ (d - 1) * 2 := by
    have h := pow_succ 2 (d - 1)
    have hdd : d - 1 + 1 = d := by omega
    rw [hdd] at h
    exact h
  have hlr : MerkleTree.leaf_range (applySets H t0 ops) = some (2 ^ (d - 1), 2 ^ d) :=
    leaf_range_good hd ⟨hdep, hlen, hLT, hinv⟩ hd33
  obtain ⟨hr1, hr2⟩ : r.1 = 2 ^ (d - 1) ∧ r.2 = 2 ^ d := by
    rw [hlr] at hr
    have hx := Option.some_inj.mp hr
    rw [← hx]
    exact ⟨rfl, rfl⟩
  rw [hr1, hr2] at hk
  rw [hr1]
  constructor
  · unfold MerkleTree.proof
    rw [hlr]
    simp only []
    rw [if_pos (by omega)]
  · have hidx1 : 1 ≤ 2 ^ (d - 1) + k := by omega
    have hanc : ∀ m, 1 ≤ m → 1 ≤ (2 ^ (d - 1) + k) / 2 ^ m →
        (applySets H t0 ops).representation.getD ((2 ^ (d - 1) + k) / 2 ^ m) [] =
          H ((applySets H t0 ops).representation.getD (2 * ((2 ^ (d - 1) + k) / 2 ^ m)) [] ++
             (applySets H t0 ops).representation.getD (2 * ((2 ^ (d - 1) + k) / 2 ^ m) + 1) []) := by
      intro m hm hp
      refine hinv ((2 ^ (d - 1) + k) / 2 ^ m) hp ?_
      have h2m : (2 : Nat) ≤ 2 ^ m := by
        calc (2 : Nat) = 2 ^ 1 := (pow_one 2).symm
        _ ≤ 2 ^ m := Nat.pow_le_pow_right (by norm_num) hm
      have hhalf : (2 ^ (d - 1) + k) / 2 ^ m ≤ (2 ^ (d - 1) + k) / 2 :=
        Nat.div_le_div_left h2m (by norm_num)
      omega
    exact verify_proofAux (applySets H t0 ops).representation hLT
      (2 ^ (d - 1) + k) hidx1 hanc

/-- Witness for C1 at a concrete input: depth 2, no mutations, offset 0. -/
theorem C1_roundtrip_witness :
    (∀ v, bytesLT (Hc v)) ∧ 2 ≤ 2 ∧
    MerkleTree.new Hc 2 (str "0xab") = some ⟨2, [[], [88], [171], [171]]⟩ ∧
    MerkleTree.leaf_range (applySets Hc ⟨2, [[], [88], [171], [171]]⟩ []) = some (2, 4) ∧
    (0 : Nat) < 4 - 2 ∧
    MerkleTree.proof (applySets Hc ⟨2, [[], [88], [171], [171]]⟩ []) 0 =
      some (proofAux (applySets Hc ⟨2, [[], [88], [171], [171]]⟩ []).representation 2) ∧
    MerkleTree.verify Hc
      (proofAux (applySets Hc ⟨2, [[], [88], [171], [171]]⟩ []).representation 2)
      (str0x ++ hexEncode
        ((applySets Hc ⟨2, [[], [88], [171], [171]]⟩ []).representation.getD 2 [])) =
      some (MerkleTree.root (applySets Hc ⟨2, [[], [88], [171], [171]]⟩ [])) := by
  have hlr : MerkleTree.leaf_range (applySets Hc ⟨2, [[], [88], [171], [171]]⟩ []) =
      some (2, 4) := by decide
  obtain ⟨h1, h2⟩ := @C1_roundtrip Hc Hc_LT 2 (le_refl 2) (str "0xab")
    ⟨2, [[], [88], [171], [171]]⟩ eval_new2 [] (2, 4) hlr 0 (by decide)
  exact ⟨Hc_LT, le_refl 2, eval_new2, hlr, by decide, h1, h2⟩

/-- C3 counterexample: a successful `set` does not leave the reserved
slot 0 unchanged.  The rebalance walk's final iteration (`current = 1`)
writes `nodes[0] = H(nodes[0] ++ nodes[1])`: here slot 0 goes from `[]`
to `[175]`. -/
theorem C3_counterexample :
    MerkleTree.new Hc 2 (str "0xab") = some ⟨2, [[], [88], [171], [171]]⟩ ∧
    MerkleTree.set Hc ⟨2, [[], [88], [171], [171]]⟩ 2 (str "0x01") =
      some ⟨2, [[175], [174], [1], [171]]⟩ ∧
    (⟨2, [[175], [174], [1], [171]]⟩ : MerkleTree).representation.getD 0 [] ≠
      (⟨2, [[], [88], [171], [171]]⟩ : MerkleTree).representation.getD 0 [] :=
  ⟨eval_new2, eval_set2, by decide⟩

/-- C3 (amended): a successful `set(i, v)` changes only the stored digests
at `i` and its ancestors — including the reserved slot 0, which the final
rebalance iteration overwrites; every slot that is not of the form
`i / 2^k` keeps its digest byte-for-byte. -/
theorem C3_set_frame {H : Bytes → Bytes} {t t2 : MerkleTree} {i : Nat} {v : Str}
    (h : MerkleTree.set H t i v = some t2) {j : Nat}
    (hj : ∀ k : Nat, i / 2 ^ k ≠ j) :
    t2.representation.getD j [] = t.representation.getD j [] := by
  unfold MerkleTree.set at h
  cases hlr : MerkleTree.leaf_range t with
  | none => rw [hlr] at h; exact absurd h (by simp)
  | some r =>
    rw [hlr] at h
    simp only [] at h
    by_cases hi : r.1 ≤ i ∧ i < r.2
    · rw [if_pos hi] at h
      cases hdec : hex_to_bytes v with
      | none => rw [hdec] at h; exact absurd h (by simp)
      | some b =>
        rw [hdec] at h
        injection h with h'
        subst h'
        simp only []
        have hij : i ≠ j := by
          have := hj 0
          simpa using this
        rw [rebalanceAux_frame H _ i j (fun k _ => hj k)]
        exact getD_set_ne [] t.representation i j b hij
    · rw [if_neg hi] at h
      exact absurd h (by simp)

/-- Witness for C3 at a concrete input: depth 2, `set` at leaf 2, slot 3
(the sibling leaf) keeps its digest. -/
theorem C3_set_frame_witness :
    MerkleTree.set Hc ⟨2, [[], [88], [171], [171]]⟩ 2 (str "0x01") =
      some ⟨2, [[175], [174], [1], [171]]⟩ ∧
    (∀ k : Nat, 2 / 2 ^ k ≠ 3) ∧
    (⟨2, [[175], [174], [1], [171]]⟩ : MerkleTree).representation.getD 3 [] =
      (⟨2, [[], [88], [171], [171]]⟩ : MerkleTree).representation.getD 3 [] := by
  have hj : ∀ k : Nat, 2 / 2 ^ k ≠ 3 := by
    intro k
    have := Nat.div_le_self 2 (2 ^ k)
    omega
  exact ⟨eval_set2, hj, C3_set_frame eval_set2 hj⟩

/-- C4 counterexample: the proof path of a depth-2 tree has 1 entry, not
2 — the walk stops at the root, taking `depth - 1` steps from a leaf
(the repo's own depth-5 test expects 4 entries). -/
theorem C4_counterexample :
    MerkleTree.new Hc 2 (str "0xab") = some ⟨2, [[], [88], [171], [171]]⟩ ∧
    (MerkleTree.proof ⟨2, [[], [88], [171], [171]]⟩ 0).map List.length = some 1 ∧
    (1 : Nat) ≠ 2 := by
  refine ⟨eval_new2, ?_, by norm_num⟩
  rw [eval_proof2]
  rfl

/-- C4 (amended): for every constructed tree of depth `d ≥ 2` (with any
successful mutations applied) and every offset accepted by `proof`, the
returned path has exactly `d - 1` entries, not `d`. -/
theorem C4_proof_length {H : Bytes → Bytes} {d : Nat} (hd : 2 ≤ d) {leaf : Str}
    {t0 : MerkleTree} (hnew : MerkleTree.new H d leaf = some t0) (ops : List (Nat × Str))
    {k : Nat} {path : List (Handedness × Str)}
    (hp : MerkleTree.proof (applySets H t0 ops) k = some path) :
    path.length = d - 1 := by
  have h32 := new_depth_lt32 hd hnew
  obtain ⟨hdep0, hlen0⟩ := new_shape hnew
  obtain ⟨hdep, hlen⟩ := applySets_shape H t0 ops
  rw [hdep0] at hdep
  rw [hlen0, if_neg (by omega), if_neg (by omega)] at hlen
  have hlr : MerkleTree.leaf_range (applySets H t0 ops) = some (2 ^ (d - 1), 2 ^ d) := by
    unfold MerkleTree.leaf_range
    rw [hdep, hlen]
    rw [if_neg (by omega), if_neg (by omega)]
  unfold MerkleTree.proof at hp
  rw [hlr] at hp
  simp only [] at hp
  by_cases hk : k < 2 ^ d - 2 ^ (d - 1)
  · rw [if_pos hk] at hp
    injection hp with hp'
    rw [← hp']
    have hone : (1 : Nat) ≤ 2 ^ (d - 1) := Nat.one_le_two_pow
    have hpow : (2 : Nat) ^ d = 2 ^ (d - 1) * 2 := by
      have h := pow_succ 2 (d - 1)
      have hdd : d - 1 + 1 = d := by omega
      rw [hdd] at h
      exact h
    exact proofAux_length (applySets H t0 ops).representation (d - 1)
      (2 ^ (d - 1) + k) (by omega)
      (by rw [show d - 1 + 1 = d from by omega]; omega)
  · rw [if_neg hk] at hp
    exact absurd hp (by simp)

/-- Witness for C4 at a concrete input: depth 2, offset 0, path length 1. -/
theorem C4_proof_length_witness :
    2 ≤ 2 ∧
    MerkleTree.new Hc 2 (str "0xab") = some ⟨2, [[], [88], [171], [171]]⟩ ∧
    MerkleTree.proof (applySets Hc ⟨2, [[], [88], [171], [171]]⟩ []) 0 =
      some [(Handedness.Left, str0x ++ hexEncode [171])] ∧
    ([(Handedness.Left, str0x ++ hexEncode [171])] : List (Handedness × Str)).length
      = 2 - 1 := by
  have hp : MerkleTree.proof (applySets Hc ⟨2, [[], [88], [171], [171]]⟩ []) 0 =
      some [(Handedness.Left, str0x ++ hexEncode [171])] := eval_proof2
  exact ⟨le_refl 2, eval_new2, hp, C4_proof_length (le_refl 2) eval_new2 [] hp⟩

/-- C5 counterexample: `leaf_range()` of a depth-1 tree is `[1, 4)` — the
whole array after the reserved slot, root included — not the claimed
`[2^0, 2^1) = [1, 2)`.  (For depth 0 the claim also fails: the `u32`
subtraction `depth - 1` underflows and the call panics instead of
designating the root slot; in the model it is `none`.) -/
theorem C5_counterexample :
    (MerkleTree.new Hc 1 (str "0xab")).bind MerkleTree.leaf_range = some (1, 4) ∧
    ((1, 4) : Nat × Nat) ≠ (2 ^ (1 - 1), 2 ^ 1) ∧
    (MerkleTree.new Hc 0 (str "0xab")).bind MerkleTree.leaf_range = none :=
  ⟨by decide, by decide, by decide⟩

/-- C5 (amended): for a constructed tree (with any successful mutations
applied), `leaf_range()` is `[2^(d-1), 2^d)` only for depth `d ≥ 2`; for
depth 1 it is `[1, 4)` (admitting the root), and for depth 0 the
`depth - 1` underflow makes the operation fail (panic) rather than
designate the single root slot. -/
theorem C5_leaf_range_cases (H : Bytes → Bytes) (d : Nat) (leaf : Str) (t0 : MerkleTree)
    (hnew : MerkleTree.new H d leaf = some t0) (ops : List (Nat × Str)) :
    MerkleTree.leaf_range (applySets H t0 ops) =
      (if d = 0 then none
       else if d = 1 then some (1, 4)
       else some (2 ^ (d - 1), 2 ^ d)) := by
  obtain ⟨hdep0, hlen0⟩ := new_shape hnew
  obtain ⟨hdep, hlen⟩ := applySets_shape H t0 ops
  rw [hdep0] at hdep
  rw [hlen0] at hlen
  unfold MerkleTree.leaf_range
  rw [hdep, hlen]
  by_cases h0 : d = 0
  · subst h0
    simp
  · by_cases h1 : d = 1
    · subst h1
      norm_num
    · have hd : 2 ≤ d := by omega
      have h32 := new_depth_lt32 hd hnew
      rw [if_neg h0, if_neg (by omega), if_neg h0, if_neg h1, if_neg h0, if_neg h1]

/-- Witness for C5 at a concrete input: the constructed depth-1 tree. -/
theorem C5_leaf_range_cases_witness :
    MerkleTree.new Hc 1 (str "0xab") = some ⟨1, [[], [88], [171], [171]]⟩ ∧
    MerkleTree.leaf_range (applySets Hc ⟨1, [[], [88], [171], [171]]⟩ []) =
      (if 1 = 0 then none
       else if 1 = 1 then some (1, 4)
       else some (2 ^ (1 - 1), 2 ^ 1)) :=
  ⟨eval_new1, C5_leaf_range_cases Hc 1 (str "0xab") _ eval_new1 []⟩

/-- C6: `set(index, value)` fails exactly when `index` is outside
`leaf_range()` (vacuously, also when `leaf_range()` itself fails) or when
`value` is not valid hexadecimal, and on failure the tree value is
untouched (the model returns `none` with no partial state); on success it
performs the full update: decoded leaf written, then the whole root path
rebalanced. -/
theorem C6_set_failure_atomic (H : Bytes → Bytes) (t : MerkleTree) (i : Nat) (v : Str) :
    (MerkleTree.set H t i v = none ↔
      ((∀ r, MerkleTree.leaf_range t = some r → ¬(r.1 ≤ i ∧ i < r.2)) ∨
        hex_to_bytes v = none)) ∧
    (∀ r b, MerkleTree.leaf_range t = some r → r.1 ≤ i → i < r.2 →
      hex_to_bytes v = some b →
      MerkleTree.set H t i v =
        some ⟨t.depth, rebalanceAux H (t.representation.set i b) i⟩) := by
  constructor
  · cases hlr : MerkleTree.leaf_range t with
    | none =>
      unfold MerkleTree.set
      rw [hlr]
      simp
    | some r =>
      unfold MerkleTree.set
      rw [hlr]
      simp only []
      by_cases hi : r.1 ≤ i ∧ i < r.2
      · rw [if_pos hi]
        cases hdec : hex_to_bytes v with
        | none => simp [hi]
        | some b => simp [hi]
      · rw [if_neg hi]
        simp only [eq_self_iff_true, true_iff]
        left
        intro r' hr'
        have hrr : r' = r := (Option.some_inj.mp hr').symm
        rw [hrr]
        exact hi
  · intro r b hr h1 h2 hb
    exact set_success hr ⟨h1, h2⟩ hb

/-- Witness for C6 at a concrete input: a successful `set` on a depth-2
tree, shown both in the characterised form and fully evaluated. -/
theorem C6_set_failure_atomic_witness :
    MerkleTree.leaf_range ⟨2, [[], [88], [171], [171]]⟩ = some (2, 4) ∧
    hex_to_bytes (str "0x01") = some [1] ∧
    MerkleTree.set Hc ⟨2, [[], [88], [171], [171]]⟩ 2 (str "0x01") =
      some ⟨2, rebalanceAux Hc ([[], [88], [171], [171]].set 2 [1]) 2⟩ ∧
    MerkleTree.set Hc ⟨2, [[], [88], [171], [171]]⟩ 2 (str "0x01") =
      some ⟨2, [[175], [174], [1], [171]]⟩ := by
  refine ⟨by decide, by decide, ?_, eval_set2⟩
  exact (C6_set_failure_atomic Hc ⟨2, [[], [88], [171], [171]]⟩ 2 (str "0x01")).2
    (2, 4) [1] (by decide) (by decide) (by decide) (by decide)

end Forrest

